import Mathlib

set_option maxHeartbeats 1000000

namespace RebaseEditor

/-!
Shallow embedding of `src/webviews/rebaseEditor.ts` (vscode-gitlens rebase
editor provider).  Strings are modelled as `List Char` (JS strings on the
ASCII texts this file handles).  The two JavaScript regular expressions

  rebaseRegex         = /^\s?#\s?Rebase\s([0-9a-f]+?)..([0-9a-f]+?)\sonto\s([0-9a-f]+?)\s.*$/gim
  rebaseCommandsRegex = /^\s?(p|pick|r|reword|e|edit|s|squash|f|fixup|b|break|d|drop)\s([0-9a-f]+?)\s(.*)$/gm

are hand-compiled into backtracking matchers with JS semantics: `^`/`$`
are multiline anchors, `.` excludes line terminators, `+?` is lazy (the
continuation is tried after every extension, shortest first), `?` is
greedy with fallback, alternatives are tried left to right, and
`exec` scans for the leftmost position at which an anchored attempt
succeeds, resuming from `lastIndex` (the `g` flag).  The commands regex
is driven to exhaustion on every parse, which resets its `lastIndex` to
0, so only the header regex carries cross-call state; `parseState` is
therefore modelled as a function of the text and the header cursor.

The VS Code text-document interface (`positionAt`, `validateRange`,
line-based ranges, `WorkspaceEdit` replace/delete/insert applied against
the original document) is modelled by `splitNL`-based line arithmetic
with position clamping as implemented by the editor host.
-/

/-- JS `\s` character class (the code points relevant to instruction files,
plus the standard Unicode members the class contains). -/
def isWS (c : Char) : Bool :=
  c == ' ' || c == '\t' || c == '\n' || c == '\r' ||
  c == Char.ofNat 11 || c == Char.ofNat 12 || c == Char.ofNat 0xa0 ||
  c == Char.ofNat 0x2028 || c == Char.ofNat 0x2029 || c == Char.ofNat 0xfeff

/-- JS line terminators: what multiline `^`/`$` anchor around and `.` excludes. -/
def isLineTerm (c : Char) : Bool :=
  c == '\n' || c == '\r' || c == Char.ofNat 0x2028 || c == Char.ofNat 0x2029

def notTerm (c : Char) : Bool := !isLineTerm c

/-- `[0-9a-f]` without the `i` flag (the commands regex). -/
def isHexDigitLower (c : Char) : Bool :=
  ('0' ≤ c && c ≤ '9') || ('a' ≤ c && c ≤ 'f')

/-- `[0-9a-f]` under the `i` flag (the header regex). -/
def isHexDigitCI (c : Char) : Bool :=
  ('0' ≤ c && c ≤ '9') || ('a' ≤ c && c ≤ 'f') || ('A' ≤ c && c ≤ 'F')

/-- Case-insensitive character comparison (`i` flag, ASCII). -/
def ciEqChar (a b : Char) : Bool := a.toLower == b.toLower

/-- Case-insensitive literal match at the head of the input. -/
def ciPrefixOf : List Char → List Char → Bool
  | [], _ => true
  | _ :: _, [] => false
  | a :: as, b :: bs => ciEqChar a b && ciPrefixOf as bs

/-- An entry of the parsed plan, as pushed by `parseState` (protocol type
`RebaseEntry`; the commit enrichment is an external collaborator and is
not part of the parsing model). -/
structure RebaseEntry where
  index : Nat
  action : List Char
  ref : List Char
  message : List Char
deriving DecidableEq, Repr

/-- A successful anchored match of `rebaseCommandsRegex`: the three
captures, the last character the match consumed (the character before the
new `lastIndex`), and the total matched length. -/
structure CmdMatch where
  act : List Char
  ref : List Char
  msg : List Char
  lastc : Char
  len : Nat
deriving DecidableEq, Repr

/-- The last character of a list, or the default when empty. -/
def lastD : List Char → Char → Char
  | [], d => d
  | c :: r, _ => lastD r c

/-- `\s(.*)$` — one whitespace, then the greedy dot-star capture; `$`
always holds at the stop position of a greedy `.*` in multiline mode. -/
def tryTailMsg : List Char → Option (List Char × Char × Nat)
  | [] => none
  | c :: r =>
    if isWS c then
      let msg := r.takeWhile notTerm
      some (msg, lastD msg c, 1 + msg.length)
    else none

/-- Lazy `([0-9a-f]+?)` followed by `\s(.*)$`: take one hex digit, try the
tail, and only extend the capture when the tail fails. -/
def lazyHexMsg : List Char → Option (List Char × List Char × Char × Nat)
  | [] => none
  | c :: r =>
    if isHexDigitLower c then
      match tryTailMsg r with
      | some (msg, lc, n) => some ([c], msg, lc, 1 + n)
      | none =>
        match lazyHexMsg r with
        | some (ref, msg, lc, n) => some (c :: ref, msg, lc, 1 + n)
        | none => none
    else none

/-- After an action alternative: `\s([0-9a-f]+?)\s(.*)$`. -/
def tryAfterAction : List Char → Option (List Char × List Char × Char × Nat)
  | [] => none
  | c :: r =>
    if isWS c then
      match lazyHexMsg r with
      | some (ref, msg, lc, n) => some (ref, msg, lc, 1 + n)
      | none => none
    else none

/-- The alternation `(p|pick|r|reword|e|edit|s|squash|f|fixup|b|break|d|drop)`
in source order. -/
def cmdTokens : List (List Char) :=
  ["p".toList, "pick".toList, "r".toList, "reword".toList,
   "e".toList, "edit".toList, "s".toList, "squash".toList,
   "f".toList, "fixup".toList, "b".toList, "break".toList,
   "d".toList, "drop".toList]

/-- Try the alternatives left to right, each with the full continuation. -/
def tryActionAlts : List (List Char) → List Char → Option CmdMatch
  | [], _ => none
  | tok :: toks, s =>
    match (if tok.isPrefixOf s then tryAfterAction (s.drop tok.length) else none) with
    | some (ref, msg, lc, n) => some ⟨tok, ref, msg, lc, tok.length + n⟩
    | none => tryActionAlts toks s

/-- Anchored attempt of `rebaseCommandsRegex` at a position: `^` (is the
position a line start), greedy `\s?`, then the alternation. -/
def tryCmdsAt (atLS : Bool) (s : List Char) : Option CmdMatch :=
  if atLS then
    match s with
    | [] => none
    | c :: r =>
      if isWS c then
        match tryActionAlts cmdTokens r with
        | some m => some ⟨m.act, m.ref, m.msg, m.lastc, m.len + 1⟩
        | none => tryActionAlts cmdTokens (c :: r)
      else tryActionAlts cmdTokens (c :: r)
  else none

/-- `exec`'s scan: attempt the anchored match at each successive position.
Returns the match index, the match data, and the input suffix just after
the match (the `lastIndex` view). -/
def searchCmds : Bool → List Char → Nat → Option (Nat × CmdMatch × List Char)
  | atLS, [], pos =>
    match tryCmdsAt atLS [] with
    | some m => some (pos, m, [])
    | none => none
  | atLS, c :: r, pos =>
    match tryCmdsAt atLS (c :: r) with
    | some m => some (pos, m, (c :: r).drop m.len)
    | none => searchCmds (isLineTerm c) r (pos + 1)

/-- `rebaseActionsMap` from the source, as an association list. -/
def rebaseActionsMap : List (List Char × List Char) :=
  [("p".toList, "pick".toList), ("pick".toList, "pick".toList),
   ("r".toList, "reword".toList), ("reword".toList, "reword".toList),
   ("e".toList, "edit".toList), ("edit".toList, "edit".toList),
   ("s".toList, "squash".toList), ("squash".toList, "squash".toList),
   ("f".toList, "fixup".toList), ("fixup".toList, "fixup".toList),
   ("b".toList, "break".toList), ("break".toList, "break".toList),
   ("d".toList, "drop".toList), ("drop".toList, "drop".toList)]

/-- `rebaseActionsMap.get(action) ?? 'pick'`. -/
def actionOf (a : List Char) : List Char :=
  (rebaseActionsMap.lookup a).getD ("pick".toList)

/-- The `do … while` loop of `parseState` over `rebaseCommandsRegex.exec`:
collect matches until `exec` fails.  Every match is at least one character
long, so `length + 1` units of fuel always suffice. -/
def parseLoop : Nat → Bool → List Char → Nat → List RebaseEntry
  | 0, _, _, _ => []
  | fuel + 1, atLS, s, pos =>
    match searchCmds atLS s pos with
    | none => []
    | some (idx, m, rest) =>
      ⟨idx, actionOf m.act, m.ref, m.msg⟩ ::
        parseLoop fuel (isLineTerm m.lastc) rest (idx + m.len)

/-- The entry list produced by one run of `parseState` over a text.  The
commands regex's `lastIndex` is 0 at the start of every parse because the
loop always runs `exec` to failure, which resets the cursor. -/
def parseEntries (t : List Char) : List RebaseEntry :=
  parseLoop (t.length + 1) true t 0

/-- `\s.*$` after the third header capture; returns the consumed length. -/
def tryHdrTail : List Char → Option Nat
  | [] => none
  | c :: r => if isWS c then some (1 + (r.takeWhile notTerm).length) else none

/-- Lazy `([0-9a-f]+?)` (third header capture) followed by `\s.*$`. -/
def lazyHex3 : List Char → Option (List Char × Nat)
  | [] => none
  | c :: r =>
    if isHexDigitCI c then
      match tryHdrTail r with
      | some n => some ([c], 1 + n)
      | none =>
        match lazyHex3 r with
        | some (h, n) => some (c :: h, 1 + n)
        | none => none
    else none

/-- `\sonto\s` then the third capture (continuation of the second). -/
def afterHex2 : List Char → Option (List Char × Nat)
  | [] => none
  | c :: r =>
    if isWS c then
      if ciPrefixOf ("onto".toList) r then
        match r.drop 4 with
        | [] => none
        | d :: r2 =>
          if isWS d then
            match lazyHex3 r2 with
            | some (h3, n) => some (h3, 1 + 4 + 1 + n)
            | none => none
          else none
      else none
    else none

/-- Lazy `([0-9a-f]+?)` (second header capture). -/
def lazyHex2 : List Char → Option (List Char × List Char × Nat)
  | [] => none
  | c :: r =>
    if isHexDigitCI c then
      match afterHex2 r with
      | some (h3, n) => some ([c], h3, 1 + n)
      | none =>
        match lazyHex2 r with
        | some (h2, h3, n) => some (c :: h2, h3, 1 + n)
        | none => none
    else none

/-- `..` — two arbitrary non-terminator characters — then the second capture. -/
def afterHex1 : List Char → Option (List Char × List Char × Nat)
  | a :: b :: r =>
    if notTerm a && notTerm b then
      match lazyHex2 r with
      | some (h2, h3, n) => some (h2, h3, 2 + n)
      | none => none
    else none
  | _ => none

/-- Lazy `([0-9a-f]+?)` (first header capture). -/
def lazyHex1 : List Char → Option (List Char × List Char × List Char × Nat)
  | [] => none
  | c :: r =>
    if isHexDigitCI c then
      match afterHex1 r with
      | some (h2, h3, n) => some ([c], h2, h3, 1 + n)
      | none =>
        match lazyHex1 r with
        | some (h1, h2, h3, n) => some (c :: h1, h2, h3, 1 + n)
        | none => none
    else none

/-- `\s` after the literal `Rebase`, then the first capture. -/
def afterRebaseWord : List Char → Option (List Char × List Char × List Char × Nat)
  | [] => none
  | c :: r =>
    if isWS c then
      match lazyHex1 r with
      | some (h1, h2, h3, n) => some (h1, h2, h3, 1 + n)
      | none => none
    else none

/-- The literal `Rebase` (case-insensitive) and everything after it. -/
def rebasePath (s : List Char) : Option (List Char × List Char × List Char × Nat) :=
  if ciPrefixOf ("Rebase".toList) s then
    match afterRebaseWord (s.drop 6) with
    | some (h1, h2, h3, n) => some (h1, h2, h3, 6 + n)
    | none => none
  else none

/-- Greedy `\s?` between `#` and `Rebase`. -/
def afterHash (s : List Char) : Option (List Char × List Char × List Char × Nat) :=
  match s with
  | [] => none
  | c :: r =>
    if isWS c then
      match rebasePath r with
      | some (h1, h2, h3, n) => some (h1, h2, h3, 1 + n)
      | none => rebasePath (c :: r)
    else rebasePath (c :: r)

/-- The literal `#` and everything after it. -/
def hashThen : List Char → Option (List Char × List Char × List Char × Nat)
  | '#' :: r =>
    match afterHash r with
    | some (h1, h2, h3, n) => some (h1, h2, h3, 1 + n)
    | none => none
  | _ => none

/-- Anchored attempt of `rebaseRegex` at a position (`^`, greedy `\s?`,
then `#…`). -/
def tryHeaderAt (atLS : Bool) (s : List Char) :
    Option (List Char × List Char × List Char × Nat) :=
  if atLS then
    match s with
    | [] => none
    | c :: r =>
      if isWS c then
        match hashThen r with
        | some (h1, h2, h3, n) => some (h1, h2, h3, n + 1)
        | none => hashThen (c :: r)
      else hashThen (c :: r)
  else none

/-- The `exec` scan for the header regex; yields captures, match index and
match length. -/
def searchHeader : Bool → List Char → Nat → Option (List Char × List Char × List Char × Nat × Nat)
  | atLS, [], pos =>
    match tryHeaderAt atLS [] with
    | some (h1, h2, h3, n) => some (h1, h2, h3, pos, n)
    | none => none
  | atLS, c :: r, pos =>
    match tryHeaderAt atLS (c :: r) with
    | some (h1, h2, h3, n) => some (h1, h2, h3, pos, n)
    | none => searchHeader (isLineTerm c) r (pos + 1)

/-- Is text position `li` a multiline line start (`^`)? -/
def atLSAt (t : List Char) (li : Nat) : Bool :=
  if li = 0 then true
  else
    match t.get? (li - 1) with
    | some c => isLineTerm c
    | none => false

/-- `rebaseRegex.exec(contents)` with the persistent `lastIndex` cursor
`li`: scan from `li` for the first anchored match. -/
def execHeader (t : List Char) (li : Nat) :
    Option (List Char × List Char × List Char × Nat × Nat) :=
  searchHeader (atLSAt t li) (t.drop li) li

/-- The header fields of the parsed state (protocol type `RebaseState`;
`branch` and `commits` come from external git collaborators and are out
of the parsing model). -/
structure RebaseState where
  fromRef : List Char
  toRef : List Char
  onto : List Char
  entries : List RebaseEntry
deriving DecidableEq, Repr

/-- `parseState` as a function of the document text and of the header
regex's persistent `lastIndex`; returns the state together with the new
cursor.  On a failed `exec` the destructuring falls back to
`['', '', ''] `and `onto ?? ''`, and JS resets the cursor to 0. -/
def parseState (t : List Char) (hdrCursor : Nat) : RebaseState × Nat :=
  match execHeader t hdrCursor with
  | some (h1, h2, h3, idx, n) => (⟨h1, h2, h3, parseEntries t⟩, idx + n)
  | none => (⟨[], [], [], parseEntries t⟩, 0)

/-- `Number.MAX_SAFE_INTEGER`. -/
def maxSafeInteger : Nat := 9007199254740991

/-- `nextIpcId`: step the module-level `ipcSequence` and render the id. -/
def nextIpcId (ipcSequence : Nat) : Nat × List Char :=
  let s := if ipcSequence = maxSafeInteger then 1 else ipcSequence + 1
  (s, ("host:" ++ toString s).toList)

/-- The counter value after `n` calls, starting from the initial
module-level value 0. -/
def ipcSeqAfter : Nat → Nat
  | 0 => 0
  | n + 1 => (nextIpcId (ipcSeqAfter n)).1

/-! ## The VS Code text document model -/

/-- The lines of a document: split on `'\n'` (a document always has at
least one line; a trailing newline yields a final empty line). -/
def splitNL : List Char → List (List Char)
  | [] => [[]]
  | c :: r =>
    match splitNL r with
    | [] => [[c]]
    | l :: ls => if c = '\n' then [] :: l :: ls else (c :: l) :: ls

/-- Joining the lines back with `'\n'`. -/
def joinNL : List (List Char) → List Char
  | [] => []
  | [l] => l
  | l :: ls => l ++ '\n' :: joinNL ls

def lineCount (t : List Char) : Nat := (splitNL t).length

/-- Offset of the start of line `k` within the joined line list. -/
def lineStartAux : List (List Char) → Nat → Nat
  | _, 0 => 0
  | [], _ + 1 => 0
  | l :: ls, k + 1 => l.length + 1 + lineStartAux ls k

def lineStartOff (t : List Char) (k : Nat) : Nat := lineStartAux (splitNL t) k

def lineLenAt (t : List Char) (k : Nat) : Nat := ((splitNL t).getD k []).length

/-- `document.positionAt(offset)`: clamp the offset to the text, then
return (line, character). -/
def posAt (t : List Char) (off : Nat) : Nat × Nat :=
  let o := min off t.length
  let k := (t.take o).count '\n'
  (k, o - lineStartOff t k)

/-- `document.validatePosition` (as used by `validateRange` and by edit
application): a line beyond the document clamps to the end of the last
line, otherwise the character clamps to the line length. -/
def validatePos (t : List Char) (p : Nat × Nat) : Nat × Nat :=
  let ls := splitNL t
  if p.1 ≥ ls.length then (ls.length - 1, (ls.getD (ls.length - 1) []).length)
  else (p.1, min p.2 (ls.getD p.1 []).length)

/-- `document.offsetAt` for a validated position. -/
def offAt (t : List Char) (p : Nat × Nat) : Nat := lineStartOff t p.1 + p.2

/-- `"{action} {ref} {message}"`. -/
def serializeEntry (act ref msg : List Char) : List Char :=
  act ++ ' ' :: ref ++ ' ' :: msg

/-- The `rebase/abort` handler: replace `Range(0, 0, document.lineCount, 0)`
(validated) with the empty string. -/
def onAbort (t : List Char) : List Char :=
  t.take (offAt t (validatePos t (0, 0))) ++
    t.drop (offAt t (validatePos t (lineCount t, 0)))

/-- The `rebase/changeEntry` handler: re-parse, find the entry by ref
(first match), and replace the full line containing `entry.index` with
`"{params.action} {entry.ref} {entry.message}"`.  The requested action is
written verbatim, without validation. -/
def onChangeEntry (t : List Char) (r : List Char) (act : List Char) : List Char :=
  match (parseEntries t).find? (fun e => e.ref == r) with
  | none => t
  | some entry =>
    let ln := (posAt t entry.index).1
    let sOff := offAt t (validatePos t (ln, 0))
    let eOff := offAt t (validatePos t (ln, maxSafeInteger))
    t.take sOff ++ serializeEntry act entry.ref entry.message ++ t.drop eOff

/-- The `rebase/moveEntry` handler: re-parse, find the entry and its index
by ref, guard the boundaries, then delete the entry's line and re-insert
the reconstructed line one line further (two lines down when moving down,
to land past the deletion).  Both edits are applied against the original
document, as `WorkspaceEdit` does. -/
def onMoveEntry (t : List Char) (r : List Char) (down : Bool) : List Char :=
  let entries := parseEntries t
  match entries.find? (fun e => e.ref == r) with
  | none => t
  | some entry =>
    let index := entries.findIdx (fun e => e.ref == r)
    if (!down && index == 0) || (down && index == entries.length - 1) then t
    else
      let ln := (posAt t entry.index).1
      let delStart := offAt t (validatePos t (ln, 0))
      let delEnd := offAt t (validatePos t (ln + 1, 0))
      let insLine := if down then ln + 2 else ln - 1
      let insOff := offAt t (validatePos t (insLine, 0))
      let ins := serializeEntry entry.action entry.ref entry.message ++ ['\n']
      if down then
        t.take delStart ++ ((t.take insOff).drop delEnd) ++ ins ++ t.drop insOff
      else
        t.take insOff ++ ins ++ ((t.take delStart).drop insOff) ++ t.drop delEnd

/-! ## Well-formed instruction texts

The spec's well-formed per-line shape: a full action word, a single
space, a nonempty lowercase-hex ref, a single space, a terminator-free
message, and a terminating newline. -/

/-- The seven recognized actions (protocol type `RebaseEntryAction`). -/
inductive RAction
  | pick | reword | edit | squash | fixup | brk | drp
deriving DecidableEq, Repr

def RAction.word : RAction → List Char
  | .pick => "pick".toList
  | .reword => "reword".toList
  | .edit => "edit".toList
  | .squash => "squash".toList
  | .fixup => "fixup".toList
  | .brk => "break".toList
  | .drp => "drop".toList

/-- One well-formed instruction line, structurally. -/
structure LineSpec where
  act : RAction
  ref : List Char
  msg : List Char
deriving DecidableEq, Repr

/-- The raw text of the line (without the terminating newline). -/
def rawLine (l : LineSpec) : List Char :=
  l.act.word ++ ' ' :: l.ref ++ ' ' :: l.msg

/-- Well-formedness of one line: nonempty lowercase-hex ref,
terminator-free message, and a line short enough for a JS string
(`Number.MAX_SAFE_INTEGER` bounds every real document length; `8` covers
the longest action word plus the two separators). -/
def WFLine (l : LineSpec) : Prop :=
  l.ref ≠ [] ∧ (∀ c ∈ l.ref, isHexDigitLower c = true) ∧
    (∀ c ∈ l.msg, notTerm c = true) ∧
    l.ref.length + l.msg.length + 8 ≤ maxSafeInteger

instance : DecidablePred WFLine := fun l => by
  unfold WFLine; infer_instance

/-- A well-formed instruction text: the given lines, each newline-terminated. -/
def render : List LineSpec → List Char
  | [] => []
  | l :: ls => rawLine l ++ '\n' :: render ls

/-- The entries such a text parses to, starting at offset `p`. -/
def entriesFrom : List LineSpec → Nat → List RebaseEntry
  | [], _ => []
  | l :: ls, p =>
    ⟨p, l.act.word, l.ref, l.msg⟩ :: entriesFrom ls (p + (rawLine l).length + 1)

/-- The seven action words. -/
def sevenActionWords : List (List Char) :=
  ["pick".toList, "reword".toList, "edit".toList, "squash".toList,
   "fixup".toList, "break".toList, "drop".toList]

/-! ## Character class facts -/

theorem hexLower_not_ws {c : Char} (h : isHexDigitLower c = true) : isWS c = false := by
  cases hw : isWS c
  · rfl
  · exfalso
    simp only [isWS, Bool.or_eq_true, beq_iff_eq] at hw
    rcases hw with (((((((((rfl|rfl)|rfl)|rfl)|rfl)|rfl)|rfl)|rfl)|rfl)|rfl) <;>
      exact absurd h (by decide)

theorem hexLower_notTerm {c : Char} (h : isHexDigitLower c = true) : notTerm c = true := by
  cases ht : isLineTerm c
  · simp [notTerm, ht]
  · exfalso
    simp only [isLineTerm, Bool.or_eq_true, beq_iff_eq] at ht
    rcases ht with (((rfl|rfl)|rfl)|rfl) <;> exact absurd h (by decide)

theorem notTerm_ne_nl {c : Char} (h : notTerm c = true) : c ≠ '\n' := by
  rintro rfl
  exact absurd h (by decide)

theorem hexLower_ne_nl {c : Char} (h : isHexDigitLower c = true) : c ≠ '\n' :=
  notTerm_ne_nl (hexLower_notTerm h)

theorem takeWhile_msg_nl (msg z : List Char) (h : ∀ c ∈ msg, notTerm c = true) :
    (msg ++ '\n' :: z).takeWhile notTerm = msg := by
  induction msg with
  | nil =>
    have hnl : notTerm '\n' = false := by decide
    simp [List.takeWhile_cons, hnl]
  | cons c r ih =>
    have hc : notTerm c = true := h c (List.mem_cons_self c r)
    simp only [List.cons_append, List.takeWhile_cons, hc, if_true]
    rw [ih (fun d hd => h d (List.mem_cons_of_mem c hd))]

theorem notTerm_false {c : Char} (h : notTerm c = true) : isLineTerm c = false := by
  cases ht : isLineTerm c
  · rfl
  · simp [notTerm, ht] at h

theorem lastD_notTerm {msg : List Char} (d : Char) (hd : isLineTerm d = false)
    (h : ∀ c ∈ msg, notTerm c = true) : isLineTerm (lastD msg d) = false := by
  induction msg generalizing d with
  | nil => simpa [lastD] using hd
  | cons c r ih =>
    have hc : notTerm c = true := h c (by simp)
    simp only [lastD]
    exact ih c (notTerm_false hc) (fun x hx => h x (by simp [hx]))

/-! ## Document model facts -/

theorem splitNL_ne_nil (t : List Char) : splitNL t ≠ [] := by
  cases t with
  | nil => simp [splitNL]
  | cons c r =>
    simp only [splitNL]
    rcases h : splitNL r with _ | ⟨l, ls⟩
    · simp
    · by_cases hc : c = '\n' <;> simp [hc]

theorem joinNL_splitNL (t : List Char) : joinNL (splitNL t) = t := by
  induction t with
  | nil => rfl
  | cons c r ih =>
    simp only [splitNL]
    rcases h : splitNL r with _ | ⟨l, ls⟩
    · exact absurd h (splitNL_ne_nil r)
    · rw [h] at ih
      by_cases hc : c = '\n'
      · subst hc
        simp only [if_pos rfl, joinNL, List.nil_append]
        rw [ih]
      · simp only [if_neg hc]
        cases ls with
        | nil =>
          simp only [joinNL] at ih ⊢
          rw [ih]
        | cons l2 ls2 =>
          simp only [joinNL, List.cons_append] at ih ⊢
          rw [ih]

theorem lineStartAux_last_add (ls : List (List Char)) (h : ls ≠ []) :
    lineStartAux ls (ls.length - 1) + (ls.getD (ls.length - 1) []).length =
      (joinNL ls).length := by
  induction ls with
  | nil => exact absurd rfl h
  | cons l rest ih =>
    cases rest with
    | nil => simp [lineStartAux, joinNL]
    | cons l2 rest2 =>
      have hne : l2 :: rest2 ≠ ([] : List (List Char)) := by simp
      have := ih hne
      simp only [List.length_cons, Nat.add_sub_cancel, lineStartAux, joinNL,
        List.getD_cons_succ, List.length_append, List.length_cons]
      simp only [List.length_cons, Nat.add_sub_cancel] at this
      omega

theorem lineCount_pos (t : List Char) : 0 < lineCount t := by
  have := splitNL_ne_nil t
  unfold lineCount
  cases h : splitNL t with
  | nil => exact absurd h this
  | cons l ls => simp

theorem endOffset_eq_length (t : List Char) :
    offAt t (validatePos t (lineCount t, 0)) = t.length := by
  have hpos := lineCount_pos t
  unfold offAt validatePos lineCount at *
  simp only [ge_iff_le, le_refl, if_pos]
  unfold lineStartOff
  have := lineStartAux_last_add (splitNL t) (splitNL_ne_nil t)
  rw [joinNL_splitNL] at this
  omega

theorem splitNL_length (t : List Char) :
    (splitNL t).length = t.count '\n' + 1 := by
  induction t with
  | nil => rfl
  | cons c r ih =>
    simp only [splitNL]
    rcases h : splitNL r with _ | ⟨l, ls⟩
    · exact absurd h (splitNL_ne_nil r)
    · rw [h] at ih
      simp only [List.length_cons] at ih
      by_cases hc : c = '\n'
      · subst hc
        simp only [if_pos rfl, List.length_cons, List.count_cons, beq_self_eq_true,
          if_true]
        omega
      · simp only [if_neg hc, List.length_cons, List.count_cons, beq_iff_eq,
          if_neg (fun h2 => hc (Eq.symm h2))]
        omega

theorem posAt_line_lt (t : List Char) (off : Nat) :
    (posAt t off).1 < lineCount t := by
  unfold posAt lineCount
  simp only
  rw [splitNL_length]
  have h1 : (t.take (min off t.length)).count '\n' ≤ t.count '\n' :=
    (List.take_sublist _ t).count_le '\n'
  omega

theorem startOffset_eq_zero (t : List Char) :
    offAt t (validatePos t (0, 0)) = 0 := by
  have hpos := lineCount_pos t
  unfold lineCount at hpos
  unfold offAt validatePos
  rw [if_neg (by omega)]
  simp [lineStartOff, lineStartAux]

theorem line_len_le (t : List Char) (k : Nat) : lineLenAt t k ≤ t.length := by
  unfold lineLenAt
  conv_rhs => rw [← joinNL_splitNL t]
  generalize splitNL t = ls
  induction ls generalizing k with
  | nil => simp
  | cons l rest ih =>
    cases k with
    | zero =>
      cases rest with
      | nil => simp [joinNL]
      | cons l2 r2 => simp [joinNL]
    | succ k =>
      cases rest with
      | nil => simp [joinNL]
      | cons l2 r2 =>
        have := ih k
        simp only [List.getD_cons_succ, joinNL, List.length_append, List.length_cons]
        simp only [joinNL] at this
        omega

/-! ## Basic facts about the ipc id generator -/

theorem nextIpcId_fst (s : Nat) :
    (nextIpcId s).1 = if s = maxSafeInteger then 1 else s + 1 := rfl

theorem ipcSeqAfter_le (n : Nat) : ipcSeqAfter n ≤ maxSafeInteger := by
  induction n with
  | zero => simp [ipcSeqAfter, maxSafeInteger]
  | succ n ih =>
    show (nextIpcId (ipcSeqAfter n)).1 ≤ maxSafeInteger
    rw [nextIpcId_fst]
    split
    · simp [maxSafeInteger]
    · rename_i hne
      omega

/-! ## Claim theorems (first group) -/

/-- Claim C4: the Abort mutation replaces the validated span
`Range(0, 0, lineCount, 0)` with the empty string, so for every non-empty
instruction text the resulting document is empty, regardless of line
structure or a trailing newline. -/
theorem c4_abort_empties_document (t : List Char) (_h : t ≠ []) : onAbort t = [] := by
  unfold onAbort
  rw [startOffset_eq_zero, endOffset_eq_length]
  simp

theorem c4_abort_empties_document_witness :
    ("pick 1a2b3c msg\n".toList ≠ ([] : List Char)) ∧
      onAbort ("pick 1a2b3c msg\n".toList) = [] :=
  ⟨by decide, c4_abort_empties_document _ (by decide)⟩

/-- Claim C9: the outbound message-id counter steps by one until it hits
`Number.MAX_SAFE_INTEGER`, where the next call wraps it to 1; it stays in
`[1, MAX_SAFE_INTEGER]`, so the rendered numeric part is never 0, and the
very first identifier produced by the process is `"host:1"`. -/
theorem c9_ipc_id_monotone_wrap_nonzero (n : Nat) :
    ipcSeqAfter (n + 1) =
      (if ipcSeqAfter n = maxSafeInteger then 1 else ipcSeqAfter n + 1) ∧
    1 ≤ ipcSeqAfter (n + 1) ∧ ipcSeqAfter (n + 1) ≤ maxSafeInteger ∧
    (nextIpcId (ipcSeqAfter n)).2 =
      ("host:" ++ toString (ipcSeqAfter (n + 1))).toList ∧
    (nextIpcId (ipcSeqAfter 0)).2 = "host:1".toList := by
  refine ⟨nextIpcId_fst _, ?_, ipcSeqAfter_le (n + 1), rfl, by decide⟩
  show 1 ≤ (nextIpcId (ipcSeqAfter n)).1
  rw [nextIpcId_fst]
  split <;> omega

/-- Claim C2 (the code violates it): `parseState` is not a pure function
of the text.  The header regex keeps its `g`-flag `lastIndex` across
calls, so parsing the same header-bearing text twice in a row yields the
header fields on the first run and empty strings on the second. -/
theorem c2_parse_not_deterministic_across_runs :
    (parseState ("# Rebase ab..cd onto ef x\npick aa y\n".toList) 0).1.fromRef =
      "ab".toList ∧
    (parseState ("# Rebase ab..cd onto ef x\npick aa y\n".toList)
        ((parseState ("# Rebase ab..cd onto ef x\npick aa y\n".toList) 0).2)).1.fromRef =
      [] ∧
    (parseState ("# Rebase ab..cd onto ef x\npick aa y\n".toList)
        ((parseState ("# Rebase ab..cd onto ef x\npick aa y\n".toList) 0).2)).1 ≠
      (parseState ("# Rebase ab..cd onto ef x\npick aa y\n".toList) 0).1 :=
  ⟨by decide, by decide, by decide⟩

/-- Claim C8: `parseState` is a total function of (text, header cursor),
and when the header `exec` fails it returns empty-string header fields
together with whatever entries matched. -/
theorem c8_parse_total_header_fallback (t : List Char) (li : Nat)
    (h : execHeader t li = none) :
    parseState t li = (⟨[], [], [], parseEntries t⟩, 0) := by
  unfold parseState
  rw [h]

theorem c8_parse_total_header_fallback_witness :
    execHeader ("no header here\npick aa y\n".toList) 0 = none ∧
    parseState ("no header here\npick aa y\n".toList) 0 =
      (⟨[], [], [], parseEntries ("no header here\npick aa y\n".toList)⟩, 0) :=
  ⟨by decide, c8_parse_total_header_fallback _ _ (by decide)⟩

/-- Claim C7: a ChangeEntryAction or MoveEntry request whose ref matches
no entry of the freshly parsed model is a no-op. -/
theorem c7_unknown_ref_noop (t r a : List Char) (down : Bool)
    (h : ∀ e ∈ parseEntries t, e.ref ≠ r) :
    onChangeEntry t r a = t ∧ onMoveEntry t r down = t := by
  have hf : (parseEntries t).find? (fun e => e.ref == r) = none := by
    rw [List.find?_eq_none]
    intro x hx
    simpa using h x hx
  constructor
  · simp only [onChangeEntry, hf]
  · simp only [onMoveEntry, hf]

theorem c7_unknown_ref_noop_witness :
    (∀ e ∈ parseEntries ("pick aa x\n".toList), e.ref ≠ "zz".toList) ∧
    onChangeEntry ("pick aa x\n".toList) ("zz".toList) ("drop".toList) =
      "pick aa x\n".toList ∧
    onMoveEntry ("pick aa x\n".toList) ("zz".toList) true = "pick aa x\n".toList := by
  have h : ∀ e ∈ parseEntries ("pick aa x\n".toList), e.ref ≠ "zz".toList := by decide
  exact ⟨h, (c7_unknown_ref_noop _ _ ("drop".toList) true h).1,
    (c7_unknown_ref_noop _ _ ("drop".toList) true h).2⟩

/-- Claim C10: the ChangeEntryAction handler writes the requested action
string into the entry's line verbatim, with no validation: for every
string `act`, the edited document is the old one with the entry's full
line replaced by `"{act} {ref} {message}"`. -/
theorem c10_changeEntry_writes_action_verbatim (t r act : List Char) (e : RebaseEntry)
    (hf : (parseEntries t).find? (fun x => x.ref == r) = some e)
    (hlen : t.length ≤ maxSafeInteger) :
    onChangeEntry t r act =
      t.take (lineStartOff t (posAt t e.index).1) ++
        serializeEntry act e.ref e.message ++
        t.drop (lineStartOff t (posAt t e.index).1 +
          lineLenAt t (posAt t e.index).1) := by
  have hlt : (posAt t e.index).1 < (splitNL t).length := by
    have := posAt_line_lt t e.index
    unfold lineCount at this
    exact this
  have h1 : validatePos t ((posAt t e.index).1, 0) = ((posAt t e.index).1, 0) := by
    unfold validatePos
    rw [if_neg (by omega)]
    simp
  have h2 : validatePos t ((posAt t e.index).1, maxSafeInteger) =
      ((posAt t e.index).1, lineLenAt t (posAt t e.index).1) := by
    unfold validatePos
    rw [if_neg (by omega)]
    have hle : lineLenAt t (posAt t e.index).1 ≤ maxSafeInteger :=
      le_trans (line_len_le t _) hlen
    unfold lineLenAt at hle ⊢
    rw [Nat.min_eq_right hle]
  simp only [onChangeEntry, hf, h1, h2, offAt]
  simp

theorem c10_changeEntry_writes_action_verbatim_witness :
    (parseEntries ("pick aa x\n".toList)).find?
        (fun x => x.ref == "aa".toList) =
      some ⟨0, "pick".toList, "aa".toList, "x".toList⟩ ∧
    ("pick aa x\n".toList).length ≤ maxSafeInteger ∧
    onChangeEntry ("pick aa x\n".toList) ("aa".toList) ("frobnicate".toList) =
      ("pick aa x\n".toList).take
          (lineStartOff ("pick aa x\n".toList)
            (posAt ("pick aa x\n".toList)
              (RebaseEntry.index ⟨0, "pick".toList, "aa".toList, "x".toList⟩)).1) ++
        serializeEntry ("frobnicate".toList) "aa".toList "x".toList ++
        ("pick aa x\n".toList).drop
          (lineStartOff ("pick aa x\n".toList)
              (posAt ("pick aa x\n".toList)
                (RebaseEntry.index ⟨0, "pick".toList, "aa".toList, "x".toList⟩)).1 +
            lineLenAt ("pick aa x\n".toList)
              (posAt ("pick aa x\n".toList)
                (RebaseEntry.index ⟨0, "pick".toList, "aa".toList, "x".toList⟩)).1) :=
  ⟨by decide, by decide,
    c10_changeEntry_writes_action_verbatim _ _ ("frobnicate".toList) _
      (by decide) (by decide)⟩

/-- Counterexample to claim C1: the line `"p abc123 x"` uses the
single-letter alias `p`; it parses to an entry with action `pick`, so
re-serializing as `"{action} {ref} {message}"` yields `"pick abc123 x"`,
which is not the original line content. -/
theorem c1_alias_breaks_roundtrip :
    parseEntries ("p abc123 x\n".toList) =
      [⟨0, "pick".toList, "abc123".toList, "x".toList⟩] ∧
    serializeEntry ("pick".toList) ("abc123".toList) ("x".toList) ≠
      (("p abc123 x\n".toList).drop 0).takeWhile (fun c => !(c == '\n')) :=
  ⟨by decide, by decide⟩

/-- Counterexample to claim C3: a line whose action token is not one of
the recognized words (`exec`) does not match `rebaseCommandsRegex` at
all, so it is omitted from the entry list instead of being parsed with
action `pick`. -/
theorem c3_unrecognized_action_line_omitted :
    parseEntries ("exec abc123 m\n".toList) = [] :=
  by decide

/-- Counterexample to claim C5: the handler resolves the ref with
`find`/`findIndex` (first occurrence).  When the last entry's ref `aa`
also occurs at index 0, a MoveEntry(aa, down) request names the entry at
the last index but moves the first entry down: the text changes. -/
theorem c5_moveEntry_duplicate_ref_not_noop :
    (parseEntries ("pick aa x\npick bb y\npick aa z\n".toList)).map
        (fun e => e.ref) =
      ["aa".toList, "bb".toList, "aa".toList] ∧
    onMoveEntry ("pick aa x\npick bb y\npick aa z\n".toList) ("aa".toList) true =
      "pick bb y\npick aa x\npick aa z\n".toList ∧
    onMoveEntry ("pick aa x\npick bb y\npick aa z\n".toList) ("aa".toList) true ≠
      "pick aa x\npick bb y\npick aa z\n".toList :=
  ⟨by decide, by decide, by decide⟩

/-- Counterexample to claim C6: on the text `"\n pick aa x\n"` (an empty
line, then an entry line with a leading space) the entry's line starts at
offset 1; the first ChangeEntryAction rewrite drops the leading space,
after which the whole match — `\s?` consuming the `'\n'` of the empty
line — starts at offset 0, so the second identical request edits the
empty line 0 and duplicates the entry line instead of being a no-op. -/
theorem c6_changeEntry_not_idempotent :
    parseEntries ("\n pick aa x\n".toList) =
      [⟨1, "pick".toList, "aa".toList, "x".toList⟩] ∧
    onChangeEntry ("\n pick aa x\n".toList) ("aa".toList) ("reword".toList) =
      "\nreword aa x\n".toList ∧
    onChangeEntry
        (onChangeEntry ("\n pick aa x\n".toList) ("aa".toList) ("reword".toList))
        ("aa".toList) ("reword".toList) ≠
      onChangeEntry ("\n pick aa x\n".toList) ("aa".toList) ("reword".toList) :=
  ⟨by decide, by decide, by decide⟩

/-- Claim C5 (amended): a MoveEntry naming the entry at index 0 with
direction up is always a no-op; naming the entry at the last index with
direction down is a no-op provided the ref resolves (by first occurrence,
as `find`/`findIndex` do) to that last index. -/
theorem c5_boundary_move_noop (t r : List Char) (down : Bool)
    (h : (down = false ∧
            ∃ e0 rest, parseEntries t = e0 :: rest ∧ e0.ref = r) ∨
         (down = true ∧ parseEntries t ≠ [] ∧
            (parseEntries t).findIdx (fun e => e.ref == r) =
              (parseEntries t).length - 1)) :
    onMoveEntry t r down = t := by
  rcases h with ⟨hd, e0, rest, hp, hr⟩ | ⟨hd, hne, hidx⟩
  · subst hd
    have hfind : (parseEntries t).find? (fun e => e.ref == r) = some e0 := by
      rw [hp]
      exact List.find?_cons_of_pos _ (by simp [hr])
    have hidx0 : (parseEntries t).findIdx (fun e => e.ref == r) = 0 := by
      rw [hp, List.findIdx_cons]
      simp [hr]
    simp only [onMoveEntry, hfind, hidx0]
    simp
  · subst hd
    cases hfind : (parseEntries t).find? (fun e => e.ref == r) with
    | none => simp only [onMoveEntry, hfind]
    | some e =>
      simp only [onMoveEntry, hfind, hidx]
      simp

theorem c5_boundary_move_noop_witness :
    onMoveEntry ("pick aa x\npick bb y\n".toList) ("aa".toList) false =
      "pick aa x\npick bb y\n".toList ∧
    onMoveEntry ("pick aa x\npick bb y\n".toList) ("bb".toList) true =
      "pick aa x\npick bb y\n".toList :=
  ⟨c5_boundary_move_noop _ _ false
      (Or.inl ⟨rfl, ⟨0, "pick".toList, "aa".toList, "x".toList⟩,
        [⟨10, "pick".toList, "bb".toList, "y".toList⟩], by decide, by decide⟩),
    c5_boundary_move_noop _ _ true (Or.inr ⟨rfl, by decide, by decide⟩)⟩

/-! ## Parsed actions are always recognized (claim C3, amended) -/

theorem tryActionAlts_act_mem {toks : List (List Char)} {s : List Char}
    {m : CmdMatch} (h : tryActionAlts toks s = some m) : m.act ∈ toks := by
  induction toks with
  | nil => simp [tryActionAlts] at h
  | cons tok rest ih =>
    rw [tryActionAlts] at h
    rcases h2 : (if tok.isPrefixOf s then tryAfterAction (s.drop tok.length)
        else none) with _ | ⟨ref, msg, lc, n⟩
    · rw [h2] at h
      exact List.mem_cons_of_mem _ (ih h)
    · rw [h2] at h
      simp only [] at h
      injection h with h3
      subst h3
      exact List.mem_cons_self _ _

theorem tryCmdsAt_false (s : List Char) : tryCmdsAt false s = none := rfl

theorem tryCmdsAt_true_nil : tryCmdsAt true [] = none := rfl

theorem tryCmdsAt_true_cons (c : Char) (r : List Char) :
    tryCmdsAt true (c :: r) =
      if isWS c then
        match tryActionAlts cmdTokens r with
        | some m => some ⟨m.act, m.ref, m.msg, m.lastc, m.len + 1⟩
        | none => tryActionAlts cmdTokens (c :: r)
      else tryActionAlts cmdTokens (c :: r) := rfl

theorem tryCmdsAt_act_mem {atLS : Bool} {s : List Char} {m : CmdMatch}
    (h : tryCmdsAt atLS s = some m) : m.act ∈ cmdTokens := by
  cases atLS with
  | false => rw [tryCmdsAt_false] at h; exact absurd h (by simp)
  | true =>
    cases s with
    | nil => rw [tryCmdsAt_true_nil] at h; exact absurd h (by simp)
    | cons c r =>
      rw [tryCmdsAt_true_cons] at h
      by_cases hws : isWS c
      · rw [if_pos hws] at h
        rcases h2 : tryActionAlts cmdTokens r with _ | m2
        · rw [h2] at h
          exact tryActionAlts_act_mem h
        · rw [h2] at h
          injection h with h3
          have hact : m2.act = m.act := by
            have := congrArg CmdMatch.act h3
            simpa using this
          rw [← hact]
          exact tryActionAlts_act_mem h2
      · rw [if_neg hws] at h
        exact tryActionAlts_act_mem h

theorem searchCmds_act_mem {atLS : Bool} {s : List Char} {pos idx : Nat}
    {m : CmdMatch} {rest : List Char}
    (h : searchCmds atLS s pos = some (idx, m, rest)) : m.act ∈ cmdTokens := by
  induction s generalizing atLS pos with
  | nil =>
    rw [searchCmds] at h
    rcases h2 : tryCmdsAt atLS [] with _ | m2
    · rw [h2] at h
      exact absurd h (by simp)
    · rw [h2] at h
      injection h with h3
      have hm : m2 = m := by
        have := congrArg (fun x => x.2.1) h3
        simpa using this
      subst hm
      exact tryCmdsAt_act_mem h2
  | cons c r ih =>
    rw [searchCmds] at h
    rcases h2 : tryCmdsAt atLS (c :: r) with _ | m2
    · rw [h2] at h
      exact ih h
    · rw [h2] at h
      injection h with h3
      have hm : m2 = m := by
        have := congrArg (fun x => x.2.1) h3
        simpa using this
      subst hm
      exact tryCmdsAt_act_mem h2

theorem actionOf_mem_seven {a : List Char} (h : a ∈ cmdTokens) :
    actionOf a ∈ sevenActionWords := by
  simp only [cmdTokens, List.mem_cons, List.not_mem_nil, or_false] at h
  rcases h with rfl|rfl|rfl|rfl|rfl|rfl|rfl|rfl|rfl|rfl|rfl|rfl|rfl|rfl <;> decide

theorem parseLoop_action_seven :
    ∀ fuel atLS s pos (e : RebaseEntry), e ∈ parseLoop fuel atLS s pos →
      e.action ∈ sevenActionWords := by
  intro fuel
  induction fuel with
  | zero =>
    intro _ _ _ e h
    simp [parseLoop] at h
  | succ f ih =>
    intro atLS s pos e h
    rw [parseLoop] at h
    rcases h2 : searchCmds atLS s pos with _ | ⟨idx, m, rest⟩
    · rw [h2] at h
      simp at h
    · rw [h2] at h
      simp only [List.mem_cons] at h
      rcases h with rfl | h
      · exact actionOf_mem_seven (searchCmds_act_mem h2)
      · exact ih _ _ _ _ h

/-! ## The matcher on well-formed entry lines -/

theorem tryTailMsg_spec (msg z : List Char) (h2 : ∀ c ∈ msg, notTerm c = true) :
    tryTailMsg (' ' :: (msg ++ '\n' :: z)) =
      some (msg, lastD msg ' ', 1 + msg.length) := by
  simp only [tryTailMsg, if_pos (show isWS ' ' = true by decide)]
  rw [takeWhile_msg_nl msg z h2]

theorem lazyHexMsg_spec :
    ∀ (ref : List Char), ref ≠ [] → (∀ c ∈ ref, isHexDigitLower c = true) →
      ∀ (msg z : List Char), (∀ c ∈ msg, notTerm c = true) →
        lazyHexMsg (ref ++ ' ' :: msg ++ '\n' :: z) =
          some (ref, msg, lastD msg ' ', ref.length + (1 + msg.length))
  | [], h0, _, _, _, _ => absurd rfl h0
  | [c], _, h1, msg, z, h2 => by
    have hc : isHexDigitLower c = true := h1 c (by simp)
    simp only [List.cons_append, List.nil_append]
    rw [lazyHexMsg, if_pos hc, tryTailMsg_spec msg z h2]
    simp
  | c :: d :: r2, _, h1, msg, z, h2 => by
    have hc : isHexDigitLower c = true := h1 c (by simp)
    have hd : isHexDigitLower d = true := h1 d (by simp)
    have hrec := lazyHexMsg_spec (d :: r2) (by simp)
      (fun x hx => h1 x (List.mem_cons_of_mem c hx)) msg z h2
    have htail : tryTailMsg ((d :: r2) ++ ' ' :: msg ++ '\n' :: z) = none := by
      simp only [List.cons_append, tryTailMsg]
      rw [if_neg]
      rw [hexLower_not_ws hd]
      simp
    simp only [List.cons_append] at hrec htail ⊢
    rw [lazyHexMsg, if_pos hc, htail, hrec]
    simp only [Option.some.injEq, Prod.mk.injEq, List.length_cons, and_true,
      true_and]
    omega

theorem tryAfterAction_spec (ref : List Char) (h0 : ref ≠ [])
    (h1 : ∀ c ∈ ref, isHexDigitLower c = true)
    (msg z : List Char) (h2 : ∀ c ∈ msg, notTerm c = true) :
    tryAfterAction (' ' :: (ref ++ ' ' :: msg ++ '\n' :: z)) =
      some (ref, msg, lastD msg ' ', 1 + (ref.length + (1 + msg.length))) := by
  rw [tryAfterAction, if_pos (show isWS ' ' = true by decide),
    lazyHexMsg_spec ref h0 h1 msg z h2]

theorem alts_step_skip (tok : List Char) (toks : List (List Char)) (s : List Char)
    (h : (if tok.isPrefixOf s then tryAfterAction (s.drop tok.length) else none) =
      none) :
    tryActionAlts (tok :: toks) s = tryActionAlts toks s := by
  rw [tryActionAlts, h]

theorem alts_step_hit (tok : List Char) (toks : List (List Char)) (s : List Char)
    (ref msg : List Char) (lc : Char) (n : Nat)
    (hp : tok.isPrefixOf s = true)
    (ha : tryAfterAction (s.drop tok.length) = some (ref, msg, lc, n)) :
    tryActionAlts (tok :: toks) s = some ⟨tok, ref, msg, lc, tok.length + n⟩ := by
  rw [tryActionAlts, if_pos hp, ha]

theorem actionOf_word (a : RAction) : actionOf a.word = a.word := by
  cases a <;> rfl

/-- Anchored match of the commands regex at the start of a well-formed
entry line: `\s?` consumes nothing (action words start with letters), the
alternation backtracks through the earlier alternatives (the one-letter
alias matches but its continuation `\s` fails on the second letter) and
settles on the full word, the lazy ref capture stops at the separating
space, and `.*$` takes the message to the end of the line. -/
theorem tryCmdsAt_line (a : RAction) (ref msg z : List Char) (h0 : ref ≠ [])
    (h1 : ∀ c ∈ ref, isHexDigitLower c = true)
    (h2 : ∀ c ∈ msg, notTerm c = true) :
    tryCmdsAt true (a.word ++ ' ' :: (ref ++ ' ' :: msg ++ '\n' :: z)) =
      some ⟨a.word, ref, msg, lastD msg ' ',
        a.word.length + (1 + (ref.length + (1 + msg.length)))⟩ := by
  have hafter := tryAfterAction_spec ref h0 h1 msg z h2
  cases a with
  | pick =>
    show tryCmdsAt true ('p' :: 'i' :: 'c' :: 'k' :: ' ' :: (ref ++ ' ' :: msg ++ '\n' :: z)) = _
    rw [tryCmdsAt_true_cons, if_neg (show ¬isWS 'p' = true by decide)]
    unfold cmdTokens
    rw [alts_step_skip ("p".toList) _ ('p' :: 'i' :: 'c' :: 'k' :: ' ' :: (ref ++ ' ' :: msg ++ '\n' :: z)) rfl]
    rw [alts_step_hit ("pick".toList) _ ('p' :: 'i' :: 'c' :: 'k' :: ' ' :: (ref ++ ' ' :: msg ++ '\n' :: z)) ref msg (lastD msg ' ') _ rfl hafter]
    rfl
  | reword =>
    show tryCmdsAt true ('r' :: 'e' :: 'w' :: 'o' :: 'r' :: 'd' :: ' ' :: (ref ++ ' ' :: msg ++ '\n' :: z)) = _
    rw [tryCmdsAt_true_cons, if_neg (show ¬isWS 'r' = true by decide)]
    unfold cmdTokens
    rw [alts_step_skip ("p".toList) _ ('r' :: 'e' :: 'w' :: 'o' :: 'r' :: 'd' :: ' ' :: (ref ++ ' ' :: msg ++ '\n' :: z)) rfl]
    rw [alts_step_skip ("pick".toList) _ ('r' :: 'e' :: 'w' :: 'o' :: 'r' :: 'd' :: ' ' :: (ref ++ ' ' :: msg ++ '\n' :: z)) rfl]
    rw [alts_step_skip ("r".toList) _ ('r' :: 'e' :: 'w' :: 'o' :: 'r' :: 'd' :: ' ' :: (ref ++ ' ' :: msg ++ '\n' :: z)) rfl]
    rw [alts_step_hit ("reword".toList) _ ('r' :: 'e' :: 'w' :: 'o' :: 'r' :: 'd' :: ' ' :: (ref ++ ' ' :: msg ++ '\n' :: z)) ref msg (lastD msg ' ') _ rfl hafter]
    rfl
  | edit =>
    show tryCmdsAt true ('e' :: 'd' :: 'i' :: 't' :: ' ' :: (ref ++ ' ' :: msg ++ '\n' :: z)) = _
    rw [tryCmdsAt_true_cons, if_neg (show ¬isWS 'e' = true by decide)]
    unfold cmdTokens
    rw [alts_step_skip ("p".toList) _ ('e' :: 'd' :: 'i' :: 't' :: ' ' :: (ref ++ ' ' :: msg ++ '\n' :: z)) rfl]
    rw [alts_step_skip ("pick".toList) _ ('e' :: 'd' :: 'i' :: 't' :: ' ' :: (ref ++ ' ' :: msg ++ '\n' :: z)) rfl]
    rw [alts_step_skip ("r".toList) _ ('e' :: 'd' :: 'i' :: 't' :: ' ' :: (ref ++ ' ' :: msg ++ '\n' :: z)) rfl]
    rw [alts_step_skip ("reword".toList) _ ('e' :: 'd' :: 'i' :: 't' :: ' ' :: (ref ++ ' ' :: msg ++ '\n' :: z)) rfl]
    rw [alts_step_skip ("e".toList) _ ('e' :: 'd' :: 'i' :: 't' :: ' ' :: (ref ++ ' ' :: msg ++ '\n' :: z)) rfl]
    rw [alts_step_hit ("edit".toList) _ ('e' :: 'd' :: 'i' :: 't' :: ' ' :: (ref ++ ' ' :: msg ++ '\n' :: z)) ref msg (lastD msg ' ') _ rfl hafter]
    rfl
  | squash =>
    show tryCmdsAt true ('s' :: 'q' :: 'u' :: 'a' :: 's' :: 'h' :: ' ' :: (ref ++ ' ' :: msg ++ '\n' :: z)) = _
    rw [tryCmdsAt_true_cons, if_neg (show ¬isWS 's' = true by decide)]
    unfold cmdTokens
    rw [alts_step_skip ("p".toList) _ ('s' :: 'q' :: 'u' :: 'a' :: 's' :: 'h' :: ' ' :: (ref ++ ' ' :: msg ++ '\n' :: z)) rfl]
    rw [alts_step_skip ("pick".toList) _ ('s' :: 'q' :: 'u' :: 'a' :: 's' :: 'h' :: ' ' :: (ref ++ ' ' :: msg ++ '\n' :: z)) rfl]
    rw [alts_step_skip ("r".toList) _ ('s' :: 'q' :: 'u' :: 'a' :: 's' :: 'h' :: ' ' :: (ref ++ ' ' :: msg ++ '\n' :: z)) rfl]
    rw [alts_step_skip ("reword".toList) _ ('s' :: 'q' :: 'u' :: 'a' :: 's' :: 'h' :: ' ' :: (ref ++ ' ' :: msg ++ '\n' :: z)) rfl]
    rw [alts_step_skip ("e".toList) _ ('s' :: 'q' :: 'u' :: 'a' :: 's' :: 'h' :: ' ' :: (ref ++ ' ' :: msg ++ '\n' :: z)) rfl]
    rw [alts_step_skip ("edit".toList) _ ('s' :: 'q' :: 'u' :: 'a' :: 's' :: 'h' :: ' ' :: (ref ++ ' ' :: msg ++ '\n' :: z)) rfl]
    rw [alts_step_skip ("s".toList) _ ('s' :: 'q' :: 'u' :: 'a' :: 's' :: 'h' :: ' ' :: (ref ++ ' ' :: msg ++ '\n' :: z)) rfl]
    rw [alts_step_hit ("squash".toList) _ ('s' :: 'q' :: 'u' :: 'a' :: 's' :: 'h' :: ' ' :: (ref ++ ' ' :: msg ++ '\n' :: z)) ref msg (lastD msg ' ') _ rfl hafter]
    rfl
  | fixup =>
    show tryCmdsAt true ('f' :: 'i' :: 'x' :: 'u' :: 'p' :: ' ' :: (ref ++ ' ' :: msg ++ '\n' :: z)) = _
    rw [tryCmdsAt_true_cons, if_neg (show ¬isWS 'f' = true by decide)]
    unfold cmdTokens
    rw [alts_step_skip ("p".toList) _ ('f' :: 'i' :: 'x' :: 'u' :: 'p' :: ' ' :: (ref ++ ' ' :: msg ++ '\n' :: z)) rfl]
    rw [alts_step_skip ("pick".toList) _ ('f' :: 'i' :: 'x' :: 'u' :: 'p' :: ' ' :: (ref ++ ' ' :: msg ++ '\n' :: z)) rfl]
    rw [alts_step_skip ("r".toList) _ ('f' :: 'i' :: 'x' :: 'u' :: 'p' :: ' ' :: (ref ++ ' ' :: msg ++ '\n' :: z)) rfl]
    rw [alts_step_skip ("reword".toList) _ ('f' :: 'i' :: 'x' :: 'u' :: 'p' :: ' ' :: (ref ++ ' ' :: msg ++ '\n' :: z)) rfl]
    rw [alts_step_skip ("e".toList) _ ('f' :: 'i' :: 'x' :: 'u' :: 'p' :: ' ' :: (ref ++ ' ' :: msg ++ '\n' :: z)) rfl]
    rw [alts_step_skip ("edit".toList) _ ('f' :: 'i' :: 'x' :: 'u' :: 'p' :: ' ' :: (ref ++ ' ' :: msg ++ '\n' :: z)) rfl]
    rw [alts_step_skip ("s".toList) _ ('f' :: 'i' :: 'x' :: 'u' :: 'p' :: ' ' :: (ref ++ ' ' :: msg ++ '\n' :: z)) rfl]
    rw [alts_step_skip ("squash".toList) _ ('f' :: 'i' :: 'x' :: 'u' :: 'p' :: ' ' :: (ref ++ ' ' :: msg ++ '\n' :: z)) rfl]
    rw [alts_step_skip ("f".toList) _ ('f' :: 'i' :: 'x' :: 'u' :: 'p' :: ' ' :: (ref ++ ' ' :: msg ++ '\n' :: z)) rfl]
    rw [alts_step_hit ("fixup".toList) _ ('f' :: 'i' :: 'x' :: 'u' :: 'p' :: ' ' :: (ref ++ ' ' :: msg ++ '\n' :: z)) ref msg (lastD msg ' ') _ rfl hafter]
    rfl
  | brk =>
    show tryCmdsAt true ('b' :: 'r' :: 'e' :: 'a' :: 'k' :: ' ' :: (ref ++ ' ' :: msg ++ '\n' :: z)) = _
    rw [tryCmdsAt_true_cons, if_neg (show ¬isWS 'b' = true by decide)]
    unfold cmdTokens
    rw [alts_step_skip ("p".toList) _ ('b' :: 'r' :: 'e' :: 'a' :: 'k' :: ' ' :: (ref ++ ' ' :: msg ++ '\n' :: z)) rfl]
    rw [alts_step_skip ("pick".toList) _ ('b' :: 'r' :: 'e' :: 'a' :: 'k' :: ' ' :: (ref ++ ' ' :: msg ++ '\n' :: z)) rfl]
    rw [alts_step_skip ("r".toList) _ ('b' :: 'r' :: 'e' :: 'a' :: 'k' :: ' ' :: (ref ++ ' ' :: msg ++ '\n' :: z)) rfl]
    rw [alts_step_skip ("reword".toList) _ ('b' :: 'r' :: 'e' :: 'a' :: 'k' :: ' ' :: (ref ++ ' ' :: msg ++ '\n' :: z)) rfl]
    rw [alts_step_skip ("e".toList) _ ('b' :: 'r' :: 'e' :: 'a' :: 'k' :: ' ' :: (ref ++ ' ' :: msg ++ '\n' :: z)) rfl]
    rw [alts_step_skip ("edit".toList) _ ('b' :: 'r' :: 'e' :: 'a' :: 'k' :: ' ' :: (ref ++ ' ' :: msg ++ '\n' :: z)) rfl]
    rw [alts_step_skip ("s".toList) _ ('b' :: 'r' :: 'e' :: 'a' :: 'k' :: ' ' :: (ref ++ ' ' :: msg ++ '\n' :: z)) rfl]
    rw [alts_step_skip ("squash".toList) _ ('b' :: 'r' :: 'e' :: 'a' :: 'k' :: ' ' :: (ref ++ ' ' :: msg ++ '\n' :: z)) rfl]
    rw [alts_step_skip ("f".toList) _ ('b' :: 'r' :: 'e' :: 'a' :: 'k' :: ' ' :: (ref ++ ' ' :: msg ++ '\n' :: z)) rfl]
    rw [alts_step_skip ("fixup".toList) _ ('b' :: 'r' :: 'e' :: 'a' :: 'k' :: ' ' :: (ref ++ ' ' :: msg ++ '\n' :: z)) rfl]
    rw [alts_step_skip ("b".toList) _ ('b' :: 'r' :: 'e' :: 'a' :: 'k' :: ' ' :: (ref ++ ' ' :: msg ++ '\n' :: z)) rfl]
    rw [alts_step_hit ("break".toList) _ ('b' :: 'r' :: 'e' :: 'a' :: 'k' :: ' ' :: (ref ++ ' ' :: msg ++ '\n' :: z)) ref msg (lastD msg ' ') _ rfl hafter]
    rfl
  | drp =>
    show tryCmdsAt true ('d' :: 'r' :: 'o' :: 'p' :: ' ' :: (ref ++ ' ' :: msg ++ '\n' :: z)) = _
    rw [tryCmdsAt_true_cons, if_neg (show ¬isWS 'd' = true by decide)]
    unfold cmdTokens
    rw [alts_step_skip ("p".toList) _ ('d' :: 'r' :: 'o' :: 'p' :: ' ' :: (ref ++ ' ' :: msg ++ '\n' :: z)) rfl]
    rw [alts_step_skip ("pick".toList) _ ('d' :: 'r' :: 'o' :: 'p' :: ' ' :: (ref ++ ' ' :: msg ++ '\n' :: z)) rfl]
    rw [alts_step_skip ("r".toList) _ ('d' :: 'r' :: 'o' :: 'p' :: ' ' :: (ref ++ ' ' :: msg ++ '\n' :: z)) rfl]
    rw [alts_step_skip ("reword".toList) _ ('d' :: 'r' :: 'o' :: 'p' :: ' ' :: (ref ++ ' ' :: msg ++ '\n' :: z)) rfl]
    rw [alts_step_skip ("e".toList) _ ('d' :: 'r' :: 'o' :: 'p' :: ' ' :: (ref ++ ' ' :: msg ++ '\n' :: z)) rfl]
    rw [alts_step_skip ("edit".toList) _ ('d' :: 'r' :: 'o' :: 'p' :: ' ' :: (ref ++ ' ' :: msg ++ '\n' :: z)) rfl]
    rw [alts_step_skip ("s".toList) _ ('d' :: 'r' :: 'o' :: 'p' :: ' ' :: (ref ++ ' ' :: msg ++ '\n' :: z)) rfl]
    rw [alts_step_skip ("squash".toList) _ ('d' :: 'r' :: 'o' :: 'p' :: ' ' :: (ref ++ ' ' :: msg ++ '\n' :: z)) rfl]
    rw [alts_step_skip ("f".toList) _ ('d' :: 'r' :: 'o' :: 'p' :: ' ' :: (ref ++ ' ' :: msg ++ '\n' :: z)) rfl]
    rw [alts_step_skip ("fixup".toList) _ ('d' :: 'r' :: 'o' :: 'p' :: ' ' :: (ref ++ ' ' :: msg ++ '\n' :: z)) rfl]
    rw [alts_step_skip ("b".toList) _ ('d' :: 'r' :: 'o' :: 'p' :: ' ' :: (ref ++ ' ' :: msg ++ '\n' :: z)) rfl]
    rw [alts_step_skip ("break".toList) _ ('d' :: 'r' :: 'o' :: 'p' :: ' ' :: (ref ++ ' ' :: msg ++ '\n' :: z)) rfl]
    rw [alts_step_skip ("d".toList) _ ('d' :: 'r' :: 'o' :: 'p' :: ' ' :: (ref ++ ' ' :: msg ++ '\n' :: z)) rfl]
    rw [alts_step_hit ("drop".toList) _ ('d' :: 'r' :: 'o' :: 'p' :: ' ' :: (ref ++ ' ' :: msg ++ '\n' :: z)) ref msg (lastD msg ' ') _ rfl hafter]
    rfl

theorem rawLine_length (l : LineSpec) :
    (rawLine l).length =
      l.act.word.length + (1 + (l.ref.length + (1 + l.msg.length))) := by
  simp only [rawLine, List.length_append, List.length_cons]
  omega

theorem word_length_le (a : RAction) : a.word.length ≤ 6 := by
  cases a <;> decide

theorem searchCmds_of_some {atLS : Bool} {s : List Char} {m : CmdMatch} (pos : Nat)
    (h : tryCmdsAt atLS s = some m) :
    searchCmds atLS s pos = some (pos, m, s.drop m.len) := by
  cases s with
  | nil => rw [searchCmds, h]; simp
  | cons c r => rw [searchCmds, h]

theorem drop_line (w ref msg z : List Char) :
    (w ++ ' ' :: (ref ++ ' ' :: msg ++ '\n' :: z)).drop
        (w.length + (1 + (ref.length + (1 + msg.length)))) = '\n' :: z := by
  have hT : w ++ ' ' :: (ref ++ ' ' :: msg ++ '\n' :: z) =
      (w ++ ' ' :: ref ++ ' ' :: msg) ++ '\n' :: z := by
    simp [List.append_assoc]
  rw [hT]
  apply List.drop_left'
  simp only [List.length_append, List.length_cons]
  omega

theorem searchCmds_line (a : RAction) (ref msg z : List Char) (p : Nat)
    (h0 : ref ≠ []) (h1 : ∀ c ∈ ref, isHexDigitLower c = true)
    (h2 : ∀ c ∈ msg, notTerm c = true) :
    searchCmds true (a.word ++ ' ' :: (ref ++ ' ' :: msg ++ '\n' :: z)) p =
      some (p,
        ⟨a.word, ref, msg, lastD msg ' ',
          a.word.length + (1 + (ref.length + (1 + msg.length)))⟩,
        '\n' :: z) := by
  rw [searchCmds_of_some p (tryCmdsAt_line a ref msg z h0 h1 h2)]
  rw [drop_line]

theorem searchCmds_newline (R : List Char) (q : Nat) :
    searchCmds false ('\n' :: R) q = searchCmds true R (q + 1) := rfl

theorem parseLoop_newline (f : Nat) (R : List Char) (q : Nat) :
    parseLoop (f + 1) false ('\n' :: R) q = parseLoop (f + 1) true R (q + 1) := by
  rw [parseLoop, parseLoop, searchCmds_newline]

theorem render_assoc_line (l : LineSpec) (w : List Char) :
    rawLine l ++ '\n' :: w =
      l.act.word ++ ' ' :: (l.ref ++ ' ' :: l.msg ++ '\n' :: w) := by
  simp [rawLine, List.append_assoc]

/-- One run of the `exec` loop over a well-formed instruction text yields
exactly one entry per line, in text order, with the match offsets at the
line starts. -/
theorem parseLoop_render :
    ∀ (ls : List LineSpec) (fuel p : Nat), (∀ l ∈ ls, WFLine l) →
      ls.length < fuel → parseLoop fuel true (render ls) p = entriesFrom ls p
  | [], fuel, p, _, hf => by
    cases fuel with
    | zero => omega
    | succ f => rw [render, parseLoop]; rfl
  | l :: ls, fuel, p, hwf, hf => by
    cases fuel with
    | zero => omega
    | succ f =>
      obtain ⟨hr0, hr1, hm, hlen⟩ := hwf l (by simp)
      rw [render, parseLoop, render_assoc_line,
        searchCmds_line l.act l.ref l.msg (render ls) p hr0 hr1 hm]
      dsimp only
      have hlast : isLineTerm (lastD l.msg ' ') = false :=
        lastD_notTerm ' ' (by decide) hm
      rw [hlast]
      cases f with
      | zero =>
        exfalso
        simp only [List.length_cons] at hf
        omega
      | succ f2 =>
        rw [parseLoop_newline,
          parseLoop_render ls (f2 + 1) _ (fun x hx => hwf x (by simp [hx]))
            (by simp only [List.length_cons] at hf; omega)]
        rw [entriesFrom, actionOf_word, rawLine_length]

theorem render_length_ge (ls : List LineSpec) : ls.length ≤ (render ls).length := by
  induction ls with
  | nil => simp [render]
  | cons l ls ih =>
    simp only [render, List.length_append, List.length_cons]
    omega

/-- `parseState`'s entry list on a well-formed instruction text. -/
theorem parseEntries_render (ls : List LineSpec) (h : ∀ l ∈ ls, WFLine l) :
    parseEntries (render ls) = entriesFrom ls 0 := by
  unfold parseEntries
  exact parseLoop_render ls _ 0 h (by have := render_length_ge ls; omega)

theorem render_append (A B : List LineSpec) :
    render (A ++ B) = render A ++ render B := by
  induction A with
  | nil => simp [render]
  | cons l A ih => simp [render, ih]

theorem entriesFrom_mem_decomp :
    ∀ (ls : List LineSpec) (p : Nat) (e : RebaseEntry), e ∈ entriesFrom ls p →
      ∃ ls1 l ls2, ls = ls1 ++ l :: ls2 ∧
        e = ⟨p + (render ls1).length, l.act.word, l.ref, l.msg⟩
  | [], p, e, h => by simp [entriesFrom] at h
  | l :: ls, p, e, h => by
    rw [entriesFrom] at h
    rcases List.mem_cons.mp h with rfl | h2
    · exact ⟨[], l, ls, rfl, by simp [render]⟩
    · obtain ⟨ls1, l1, ls2, rfl, he⟩ :=
        entriesFrom_mem_decomp ls (p + (rawLine l).length + 1) e h2
      refine ⟨l :: ls1, l1, ls2, rfl, ?_⟩
      rw [he]
      have : p + (rawLine l).length + 1 + (render ls1).length =
          p + (render (l :: ls1)).length := by
        simp only [render, List.length_append, List.length_cons]
        omega
      rw [this]

/-- Claim C1 (amended): on a well-formed instruction text (full action
words, no leading whitespace, lowercase-hex refs, newline-free messages,
newline-terminated lines) re-serializing any parsed entry as
`"{action} {ref} {message}"` and substituting it at the entry's
`textOffset` over the serialization's length reproduces the text — the
serialization is byte-for-byte the original line content. -/
theorem c1_roundtrip_wellformed (ls : List LineSpec) (h : ∀ l ∈ ls, WFLine l)
    (e : RebaseEntry) (he : e ∈ parseEntries (render ls)) :
    (render ls).take e.index ++
        serializeEntry e.action e.ref e.message ++
        (render ls).drop
          (e.index + (serializeEntry e.action e.ref e.message).length) =
      render ls := by
  rw [parseEntries_render ls h] at he
  obtain ⟨ls1, l, ls2, rfl, rfl⟩ := entriesFrom_mem_decomp ls 0 e he
  show (render (ls1 ++ l :: ls2)).take (0 + (render ls1).length) ++
      rawLine l ++
      (render (ls1 ++ l :: ls2)).drop
        (0 + (render ls1).length + (rawLine l).length) =
    render (ls1 ++ l :: ls2)
  rw [render_append, render]
  rw [Nat.zero_add]
  rw [List.take_left' rfl]
  have hd : render ls1 ++ (rawLine l ++ '\n' :: render ls2) =
      (render ls1 ++ rawLine l) ++ '\n' :: render ls2 := by
    simp [List.append_assoc]
  rw [hd, List.drop_left' (by simp [List.length_append])]

/-! ## Document geometry of well-formed instruction texts -/

theorem word_nlfree (a : RAction) : ∀ c ∈ a.word, c ≠ '\n' := by
  cases a <;> decide

theorem rawLine_nlfree {l : LineSpec} (h : WFLine l) :
    ∀ c ∈ rawLine l, c ≠ '\n' := by
  obtain ⟨h0, h1, h2, h3⟩ := h
  intro c hc
  rw [rawLine] at hc
  have hc2 : c ∈ l.act.word ∨ c = ' ' ∨ c ∈ l.ref ∨ c ∈ l.msg := by
    simp only [List.mem_append, List.mem_cons] at hc
    tauto
  rcases hc2 with h' | rfl | h' | h'
  · exact word_nlfree l.act c h'
  · decide
  · exact hexLower_ne_nl (h1 c h')
  · exact notTerm_ne_nl (h2 c h')

theorem splitNL_block (x : List Char) (r : List Char)
    (h : ∀ c ∈ x, c ≠ '\n') : splitNL (x ++ '\n' :: r) = x :: splitNL r := by
  induction x with
  | nil =>
    simp only [List.nil_append, splitNL]
    rcases h2 : splitNL r with _ | ⟨l, ls⟩
    · exact absurd h2 (splitNL_ne_nil r)
    · simp
  | cons c x ih =>
    have hc : c ≠ '\n' := h c (by simp)
    simp only [List.cons_append, splitNL, List.append_eq]
    rw [ih (fun d hd => h d (by simp [hd]))]
    simp [hc]

theorem splitNL_render (ls : List LineSpec) (h : ∀ l ∈ ls, WFLine l) :
    splitNL (render ls) = ls.map rawLine ++ [[]] := by
  induction ls with
  | nil => simp [render, splitNL]
  | cons l ls ih =>
    rw [render, splitNL_block (rawLine l) (render ls)
      (rawLine_nlfree (h l (by simp))),
      ih (fun x hx => h x (by simp [hx]))]
    simp

theorem count_render (ls : List LineSpec) (h : ∀ l ∈ ls, WFLine l) :
    (render ls).count '\n' = ls.length := by
  have h1 := splitNL_length (render ls)
  rw [splitNL_render ls h] at h1
  simp only [List.length_append, List.length_map, List.length_cons,
    List.length_nil] at h1
  omega

theorem getD_append_length {α : Type} (A : List α) (b : α) (B : List α) (d : α) :
    (A ++ b :: B).getD A.length d = b := by
  induction A with
  | nil => simp
  | cons a A ih => simpa using ih

theorem lineStartAux_map (ls1 : List LineSpec) (rest : List (List Char)) :
    lineStartAux (ls1.map rawLine ++ rest) ls1.length = (render ls1).length := by
  induction ls1 with
  | nil => simp [lineStartAux, render]
  | cons l ls1 ih =>
    rw [List.map_cons, List.cons_append, List.length_cons, lineStartAux, ih,
      render]
    simp only [List.length_append, List.length_cons]
    omega

theorem splitNL_render_mid (ls1 : List LineSpec) (l : LineSpec)
    (ls2 : List LineSpec) (h : ∀ x ∈ ls1 ++ l :: ls2, WFLine x) :
    splitNL (render (ls1 ++ l :: ls2)) =
      ls1.map rawLine ++ rawLine l :: (ls2.map rawLine ++ [[]]) := by
  rw [splitNL_render _ h]
  simp

theorem render_length_mid (ls1 : List LineSpec) (l : LineSpec)
    (ls2 : List LineSpec) :
    (render (ls1 ++ l :: ls2)).length =
      (render ls1).length + ((rawLine l).length + 1 + (render ls2).length) := by
  rw [render_append, render]
  simp only [List.length_append, List.length_cons]
  omega

theorem posAt_render (ls1 : List LineSpec) (l : LineSpec) (ls2 : List LineSpec)
    (h : ∀ x ∈ ls1 ++ l :: ls2, WFLine x) :
    posAt (render (ls1 ++ l :: ls2)) ((render ls1).length) = (ls1.length, 0) := by
  have hWF1 : ∀ x ∈ ls1, WFLine x := fun x hx => h x (by simp [hx])
  have hle : (render ls1).length ≤ (render (ls1 ++ l :: ls2)).length := by
    rw [render_length_mid]
    omega
  have htake : (render (ls1 ++ l :: ls2)).take ((render ls1).length) =
      render ls1 := by
    rw [render_append]
    exact List.take_left' rfl
  show ((((render (ls1 ++ l :: ls2)).take
        (min ((render ls1).length) (render (ls1 ++ l :: ls2)).length)).count '\n'),
      min ((render ls1).length) (render (ls1 ++ l :: ls2)).length -
        lineStartOff (render (ls1 ++ l :: ls2))
          (((render (ls1 ++ l :: ls2)).take
            (min ((render ls1).length)
              (render (ls1 ++ l :: ls2)).length)).count '\n')) =
    (ls1.length, 0)
  rw [Nat.min_eq_left hle, htake, count_render ls1 hWF1]
  unfold lineStartOff
  rw [splitNL_render_mid ls1 l ls2 h, lineStartAux_map]
  simp

theorem lineLen_render_mid (ls1 : List LineSpec) (l : LineSpec)
    (ls2 : List LineSpec) (h : ∀ x ∈ ls1 ++ l :: ls2, WFLine x) :
    ((splitNL (render (ls1 ++ l :: ls2))).getD ls1.length []) = rawLine l := by
  rw [splitNL_render_mid ls1 l ls2 h]
  have := getD_append_length (ls1.map rawLine) (rawLine l)
    (ls2.map rawLine ++ [[]]) []
  rw [List.length_map] at this
  exact this

theorem rawLine_le_maxSafe {l : LineSpec} (h : WFLine l) :
    (rawLine l).length ≤ maxSafeInteger := by
  obtain ⟨_, _, _, h3⟩ := h
  have := word_length_le l.act
  rw [rawLine_length]
  omega

theorem lineCount_render_mid (ls1 : List LineSpec) (l : LineSpec)
    (ls2 : List LineSpec) (h : ∀ x ∈ ls1 ++ l :: ls2, WFLine x) :
    (splitNL (render (ls1 ++ l :: ls2))).length =
      ls1.length + (ls2.length + 2) := by
  rw [splitNL_render_mid ls1 l ls2 h]
  simp only [List.length_append, List.length_map, List.length_cons,
    List.length_nil]

theorem validate_start_render (ls1 : List LineSpec) (l : LineSpec)
    (ls2 : List LineSpec) (h : ∀ x ∈ ls1 ++ l :: ls2, WFLine x) :
    offAt (render (ls1 ++ l :: ls2))
        (validatePos (render (ls1 ++ l :: ls2)) (ls1.length, 0)) =
      (render ls1).length := by
  unfold validatePos offAt
  rw [if_neg (by rw [lineCount_render_mid ls1 l ls2 h]; omega)]
  simp only [Nat.zero_min]
  unfold lineStartOff
  rw [splitNL_render_mid ls1 l ls2 h, lineStartAux_map]
  simp

theorem validate_end_render (ls1 : List LineSpec) (l : LineSpec)
    (ls2 : List LineSpec) (h : ∀ x ∈ ls1 ++ l :: ls2, WFLine x) :
    offAt (render (ls1 ++ l :: ls2))
        (validatePos (render (ls1 ++ l :: ls2)) (ls1.length, maxSafeInteger)) =
      (render ls1).length + (rawLine l).length := by
  unfold validatePos offAt
  rw [if_neg (by rw [lineCount_render_mid ls1 l ls2 h]; omega)]
  simp only
  rw [lineLen_render_mid ls1 l ls2 h]
  rw [Nat.min_eq_right (rawLine_le_maxSafe (h l (by simp)))]
  unfold lineStartOff
  rw [splitNL_render_mid ls1 l ls2 h, lineStartAux_map]

theorem splice_render (ls1 : List LineSpec) (l : LineSpec) (ls2 : List LineSpec)
    (x : List Char) :
    (render (ls1 ++ l :: ls2)).take ((render ls1).length) ++ x ++
        (render (ls1 ++ l :: ls2)).drop
          ((render ls1).length + (rawLine l).length) =
      render ls1 ++ x ++ '\n' :: render ls2 := by
  rw [render_append, render]
  rw [List.take_left' rfl]
  have hd : render ls1 ++ (rawLine l ++ '\n' :: render ls2) =
      (render ls1 ++ rawLine l) ++ '\n' :: render ls2 := by
    simp [List.append_assoc]
  rw [hd, List.drop_left' (by simp [List.length_append])]

/-! ## Locating an entry by ref in a well-formed text -/

theorem find?_entriesFrom_split :
    ∀ (ls1 : List LineSpec) (l : LineSpec) (ls2 : List LineSpec) (p : Nat)
      (r : List Char), (∀ x ∈ ls1, x.ref ≠ r) → l.ref = r →
      (entriesFrom (ls1 ++ l :: ls2) p).find? (fun e => e.ref == r) =
        some ⟨p + (render ls1).length, l.act.word, l.ref, l.msg⟩
  | [], l, ls2, p, r, _, hr => by
    rw [List.nil_append, entriesFrom, List.find?_cons_of_pos _ (by simp [hr])]
    simp [render]
  | x :: ls1, l, ls2, p, r, hne, hr => by
    rw [List.cons_append, entriesFrom,
      List.find?_cons_of_neg _ (by simp [hne x (by simp)]),
      find?_entriesFrom_split ls1 l ls2 _ r (fun y hy => hne y (by simp [hy])) hr]
    have : p + (rawLine x).length + 1 + (render ls1).length =
        p + (render (x :: ls1)).length := by
      simp only [render, List.length_append, List.length_cons]
      omega
    rw [this]

theorem find?_entriesFrom_inv :
    ∀ (ls : List LineSpec) (p : Nat) (r : List Char) (e : RebaseEntry),
      (entriesFrom ls p).find? (fun x => x.ref == r) = some e →
      ∃ ls1 l ls2, ls = ls1 ++ l :: ls2 ∧ (∀ x ∈ ls1, x.ref ≠ r) ∧ l.ref = r
  | [], p, r, e, h => by simp [entriesFrom] at h
  | l :: ls, p, r, e, h => by
    by_cases hr : l.ref = r
    · exact ⟨[], l, ls, rfl, by simp, hr⟩
    · rw [entriesFrom, List.find?_cons_of_neg _ (by simp [hr])] at h
      obtain ⟨ls1, l1, ls2, hls, hne, hr1⟩ := find?_entriesFrom_inv ls _ r e h
      refine ⟨l :: ls1, l1, ls2, by rw [hls, List.cons_append], ?_, hr1⟩
      intro x hx
      rcases List.mem_cons.mp hx with rfl | hx2
      · exact hr
      · exact hne x hx2

/-- The ChangeEntryAction handler on a well-formed text whose first entry
with ref `r` sits between `ls1` and `ls2`: the entry's full line is
replaced by the serialization with the new action, i.e. the text becomes
the same well-formed text with that one line's action swapped. -/
theorem onChangeEntry_render (ls1 : List LineSpec) (l : LineSpec)
    (ls2 : List LineSpec) (r : List Char) (a : RAction)
    (h : ∀ x ∈ ls1 ++ l :: ls2, WFLine x)
    (hne : ∀ x ∈ ls1, x.ref ≠ r) (hr : l.ref = r) :
    onChangeEntry (render (ls1 ++ l :: ls2)) r a.word =
      render (ls1 ++ (⟨a, l.ref, l.msg⟩ : LineSpec) :: ls2) := by
  unfold onChangeEntry
  rw [parseEntries_render _ h, find?_entriesFrom_split ls1 l ls2 0 r hne hr]
  dsimp only
  rw [Nat.zero_add, posAt_render ls1 l ls2 h]
  dsimp only
  rw [validate_start_render ls1 l ls2 h, validate_end_render ls1 l ls2 h]
  rw [splice_render]
  rw [render_append, render, List.append_assoc]
  exact rfl

/-- Claim C6 (amended): on well-formed instruction texts the
ChangeEntryAction mutation is idempotent — applying the same
(ref, action) request twice yields the same text as applying it once. -/
theorem c6_changeEntry_idempotent_wellformed (ls : List LineSpec)
    (r : List Char) (a : RAction) (h : ∀ l ∈ ls, WFLine l) :
    onChangeEntry (onChangeEntry (render ls) r a.word) r a.word =
      onChangeEntry (render ls) r a.word := by
  cases hf : (parseEntries (render ls)).find? (fun e => e.ref == r) with
  | none =>
    have h1 : onChangeEntry (render ls) r a.word = render ls := by
      simp only [onChangeEntry, hf]
    rw [h1]
    exact h1
  | some e =>
    rw [parseEntries_render ls h] at hf
    obtain ⟨ls1, l, ls2, hls, hne, hr⟩ := find?_entriesFrom_inv ls 0 r e hf
    subst hls
    have hWF2 : ∀ x ∈ ls1 ++ (⟨a, l.ref, l.msg⟩ : LineSpec) :: ls2, WFLine x := by
      intro x hx
      rcases List.mem_append.mp hx with hx1 | hx2
      · exact h x (by simp [hx1])
      · rcases List.mem_cons.mp hx2 with rfl | hx3
        · obtain ⟨a1, a2, a3, a4⟩ := h l (by simp)
          exact ⟨a1, a2, a3, a4⟩
        · exact h x (by simp [hx3])
    rw [onChangeEntry_render ls1 l ls2 r a h hne hr,
      onChangeEntry_render ls1 ⟨a, l.ref, l.msg⟩ ls2 r a hWF2 hne hr]

theorem c6_changeEntry_idempotent_wellformed_witness :
    onChangeEntry
        (onChangeEntry
          (render [(⟨RAction.pick, "aa".toList, "x".toList⟩ : LineSpec),
            ⟨RAction.squash, "bb".toList, "y".toList⟩])
          ("aa".toList) (RAction.reword).word)
        ("aa".toList) (RAction.reword).word =
      onChangeEntry
        (render [(⟨RAction.pick, "aa".toList, "x".toList⟩ : LineSpec),
          ⟨RAction.squash, "bb".toList, "y".toList⟩])
        ("aa".toList) (RAction.reword).word :=
  c6_changeEntry_idempotent_wellformed
    [⟨RAction.pick, "aa".toList, "x".toList⟩,
      ⟨RAction.squash, "bb".toList, "y".toList⟩]
    ("aa".toList) RAction.reword (by decide)

theorem c1_roundtrip_wellformed_witness :
    (∀ l ∈ [(⟨RAction.pick, "aa".toList, "x".toList⟩ : LineSpec)], WFLine l) ∧
    (⟨0, "pick".toList, "aa".toList, "x".toList⟩ : RebaseEntry) ∈
      parseEntries (render [⟨RAction.pick, "aa".toList, "x".toList⟩]) ∧
    (render [(⟨RAction.pick, "aa".toList, "x".toList⟩ : LineSpec)]).take 0 ++
        serializeEntry ("pick".toList) ("aa".toList) ("x".toList) ++
        (render [(⟨RAction.pick, "aa".toList, "x".toList⟩ : LineSpec)]).drop
          (0 + (serializeEntry ("pick".toList) ("aa".toList) ("x".toList)).length) =
      render [(⟨RAction.pick, "aa".toList, "x".toList⟩ : LineSpec)] :=
  ⟨by decide, by decide,
    c1_roundtrip_wellformed [⟨RAction.pick, "aa".toList, "x".toList⟩] (by decide)
      ⟨0, "pick".toList, "aa".toList, "x".toList⟩ (by decide)⟩

/-- Claim C3 (amended): a line whose action token is unrecognized is
omitted from the entry list (the regex alternation only admits the 14
recognized tokens), so every parsed entry's action is one of the seven
actions and the `?? 'pick'` fallback is never exercised. -/
theorem c3_parsed_actions_recognized (t : List Char) (e : RebaseEntry)
    (h : e ∈ parseEntries t) : e.action ∈ sevenActionWords :=
  parseLoop_action_seven _ _ _ _ _ h

theorem c3_parsed_actions_recognized_witness :
    (⟨0, "pick".toList, "aa".toList, "x".toList⟩ : RebaseEntry) ∈
      parseEntries ("pick aa x\n".toList) ∧
    ("pick".toList : List Char) ∈ sevenActionWords :=
  ⟨by decide,
    c3_parsed_actions_recognized ("pick aa x\n".toList)
      ⟨0, "pick".toList, "aa".toList, "x".toList⟩ (by decide)⟩

end RebaseEditor
